import Mathlib

/-!
Shallow embedding of `src/x86.rs` (register-allocation-zoo): the x86-like
operand/instruction data model, per-instruction use/def extraction, and the
backward liveness scan over a straight-line block, together with theorems
settling the specification claims about them.
-/

namespace X86

/-- Rust `pub struct Name(pub String)` — symbolic variable names; the newtype
wrapper is identified with its carrier. -/
abbrev Name := String

/-- Rust `pub struct Label(pub String)` — branch/call target labels. -/
abbrev Label := String

/-- Rust `pub struct Arity(pub u8)` — declared argument count of a call. The Rust
carrier is `u8`; it is modelled as `Nat` (truncating `take` semantics agree on
every `u8` value). -/
abbrev Arity := Nat

/-- The closed 16-register enumeration from `src/x86.rs`. -/
inductive Register where
  | RSP | RBP | RAX | RBX | RCX | RDX | RSI | RDI
  | R8 | R9 | R10 | R11 | R12 | R13 | R14 | R15
  deriving DecidableEq, Fintype

/-- List `Register::CALLER_SAVED` — in source order. -/
def Register.CALLER_SAVED : List Register :=
  [.RAX, .RCX, .RDX, .RSI, .RDI, .R8, .R9, .R10, .R11]

/-- List `Register::CALLEE_SAVED` — in source order. -/
def Register.CALLEE_SAVED : List Register :=
  [.RSP, .RBP, .RBX, .R12, .R13, .R14, .R15]

/-- List `Register::ARGUMENT_PASSING` — in calling-convention order. -/
def Register.ARGUMENT_PASSING : List Register :=
  [.RDI, .RSI, .RDX, .RCX, .R8, .R9]

/-- Rust `pub enum Operand` — register, memory (base + signed offset), symbolic
variable, or immediate constant. Rust `i64` is modelled as `Int` (only
structural equality of offsets/values matters to the analysis). -/
inductive Operand where
  | Reg (r : Register)
  | Mem (base : Register) (offset : Int)
  | Var (name : Name)
  | Imm (val : Int)
  deriving DecidableEq

/-- Predicate `Operand::can_live` — true for `Reg`/`Mem`/`Var`, false for `Imm`. -/
def Operand.can_live : Operand → Bool
  | .Reg _ => true
  | .Mem _ _ => true
  | .Var _ => true
  | .Imm _ => false

/-- Rust `pub enum InstrF<A>` — the closed instruction shapes, generic over the
operand representation. -/
inductive InstrF (A : Type) where
  | AddQ (src dst : A)
  | SubQ (src dst : A)
  | NegQ (dst : A)
  | MovQ (src dst : A)
  | PushQ (op : A)
  | PopQ (op : A)
  | CallQ (label : Label) (arity : Arity)
  | Jmp (label : Label)
  | Syscall
  | RetQ
  deriving DecidableEq

/-- Rust `pub type Instr = InstrF<Operand>`. -/
abbrev Instr := InstrF Operand

/-- Function `Instr::uses` — the set of operands an instruction reads. Mirrors the
Rust `match`: conditional inserts become conditional singletons, the `CallQ`
arm takes the first `arity` argument-passing registers, and the `_ => {}`
arm yields the empty set. -/
def Instr.uses : Instr → Finset Operand
  | .AddQ src dst =>
      (if src.can_live then {src} else ∅) ∪ (if dst.can_live then {dst} else ∅)
  | .SubQ src dst =>
      (if src.can_live then {src} else ∅) ∪ (if dst.can_live then {dst} else ∅)
  | .NegQ dst => if dst.can_live then {dst} else ∅
  | .MovQ src _ => if src.can_live then {src} else ∅
  | .CallQ _ arity =>
      ((Register.ARGUMENT_PASSING.take arity).map Operand.Reg).toFinset
  | _ => ∅

/-- Function `Instr::defs` — the set of operands an instruction overwrites. -/
def Instr.defs : Instr → Finset Operand
  | .AddQ _ dst => if dst.can_live then {dst} else ∅
  | .SubQ _ dst => if dst.can_live then {dst} else ∅
  | .NegQ dst => if dst.can_live then {dst} else ∅
  | .MovQ _ dst => if dst.can_live then {dst} else ∅
  | .CallQ _ _ => (Register.CALLER_SAVED.map Operand.Reg).toFinset
  | _ => ∅

/-- Rust `pub struct Liveness` — one record per instruction position. -/
structure Liveness where
  instr : Instr
  before : Finset Operand
  after : Finset Operand
  deriving DecidableEq

/-- Rust `pub struct Block(pub Vec<Instr>)`. -/
structure Block where
  instrs : List Instr

/-- The loop body of `Block::liveness`: iterate over the (already reversed)
instruction list carrying the running `after` accumulator; each step records
`before = uses ∪ (after \ defs)` and threads `before` on as the next `after`.
The records come out in reverse program order, exactly as the Rust loop
pushes them. -/
def livenessGo : List Instr → Finset Operand → List Liveness
  | [], _ => []
  | instr :: rest, after =>
      let before := instr.uses ∪ (after \ instr.defs)
      ⟨instr, before, after⟩ :: livenessGo rest before

/-- Function `Block::liveness` — reverse the block, scan with an initially empty
accumulator, and reverse the records back into forward program order. -/
def Block.liveness (b : Block) : List Liveness :=
  (livenessGo b.instrs.reverse ∅).reverse

/-- The five-instruction block of `tests::test_liveness`. -/
def testBlock : Block :=
  ⟨[.MovQ (.Imm 32) (.Var "x"),
    .MovQ (.Imm 10) (.Var "y"),
    .MovQ (.Var "x") (.Var "z"),
    .AddQ (.Var "y") (.Var "z"),
    .NegQ (.Var "z")]⟩

/-! ### Helper lemmas about the scan loop -/

lemma livenessGo_length (l : List Instr) (acc : Finset Operand) :
    (livenessGo l acc).length = l.length := by
  induction l generalizing acc with
  | nil => rfl
  | cons i rest ih => simp [livenessGo, ih]

lemma livenessGo_map_instr (l : List Instr) (acc : Finset Operand) :
    (livenessGo l acc).map Liveness.instr = l := by
  induction l generalizing acc with
  | nil => rfl
  | cons i rest ih => simp [livenessGo, ih]

lemma mem_livenessGo_before (l : List Instr) (acc : Finset Operand) :
    ∀ r ∈ livenessGo l acc, r.before = r.instr.uses ∪ (r.after \ r.instr.defs) := by
  induction l generalizing acc with
  | nil => simp [livenessGo]
  | cons i rest ih =>
      intro r hr
      simp only [livenessGo, List.mem_cons] at hr
      rcases hr with h | h
      · subst h; rfl
      · exact ih _ r h

lemma livenessGo_getElem_zero_after (l : List Instr) (acc : Finset Operand)
    (h : 0 < (livenessGo l acc).length) : (livenessGo l acc)[0].after = acc := by
  cases l with
  | nil => simp [livenessGo] at h
  | cons i rest => rfl

lemma livenessGo_chain (l : List Instr) (acc : Finset Operand) (k : Nat)
    (hk : k + 1 < (livenessGo l acc).length) :
    (livenessGo l acc)[k + 1].after = (livenessGo l acc)[k].before := by
  induction l generalizing acc k with
  | nil => simp [livenessGo] at hk
  | cons i rest ih =>
      simp only [livenessGo, List.length_cons] at hk ⊢
      cases k with
      | zero =>
          have h0 : 0 < (livenessGo rest (i.uses ∪ (acc \ i.defs))).length := by
            omega
          simpa using livenessGo_getElem_zero_after rest (i.uses ∪ (acc \ i.defs)) h0
      | succ k =>
          have hk2 : k + 1 < (livenessGo rest (i.uses ∪ (acc \ i.defs))).length := by
            omega
          simpa using ih (i.uses ∪ (acc \ i.defs)) k hk2

lemma livenessGo_head_after (l : List Instr) (acc : Finset Operand) :
    ∀ r, (livenessGo l acc).head? = some r → r.after = acc := by
  cases l with
  | nil => intro r h; simp [livenessGo] at h
  | cons i rest =>
      intro r h
      simp only [livenessGo, List.head?_cons, Option.some.injEq] at h
      rw [← h]

lemma livenessGo_chain_opt (l : List Instr) (acc : Finset Operand) (k : Nat)
    (hk : k + 1 < (livenessGo l acc).length) :
    ((livenessGo l acc)[k + 1]?).map Liveness.after =
      ((livenessGo l acc)[k]?).map Liveness.before := by
  rw [List.getElem?_eq_getElem hk, List.getElem?_eq_getElem (by omega)]
  simp [livenessGo_chain l acc k hk]

lemma liveness_length (b : Block) : b.liveness.length = b.instrs.length := by
  simp [Block.liveness, livenessGo_length]

lemma pair_filter_can_live (src dst : Operand) :
    ({src, dst} : Finset Operand).filter (fun o => o.can_live) =
      (if src.can_live then {src} else ∅) ∪ (if dst.can_live then {dst} else ∅) := by
  ext o
  simp only [Finset.mem_filter, Finset.mem_insert, Finset.mem_singleton, Finset.mem_union]
  constructor
  · rintro ⟨rfl | rfl, h⟩
    · exact Or.inl (by simp [h])
    · exact Or.inr (by simp [h])
  · rintro (h | h)
    · by_cases hs : src.can_live
      · simp only [hs, if_true, Finset.mem_singleton] at h
        exact ⟨Or.inl h, h ▸ hs⟩
      · simp [hs] at h
    · by_cases hd : dst.can_live
      · simp only [hd, if_true, Finset.mem_singleton] at h
        exact ⟨Or.inr h, h ▸ hd⟩
      · simp [hd] at h

lemma imm_not_mem_ite_singleton (o : Operand) (v : Int) :
    Operand.Imm v ∉ (if o.can_live then ({o} : Finset Operand) else ∅) := by
  by_cases h : o.can_live
  · simp only [h, if_true, Finset.mem_singleton]
    rintro rfl
    simp [Operand.can_live] at h
  · simp [h]

lemma imm_not_mem_uses (ins : Instr) (v : Int) : Operand.Imm v ∉ ins.uses := by
  cases ins with
  | AddQ src dst =>
      intro h
      rcases Finset.mem_union.mp h with h | h
      · exact imm_not_mem_ite_singleton src v h
      · exact imm_not_mem_ite_singleton dst v h
  | SubQ src dst =>
      intro h
      rcases Finset.mem_union.mp h with h | h
      · exact imm_not_mem_ite_singleton src v h
      · exact imm_not_mem_ite_singleton dst v h
  | NegQ dst => exact imm_not_mem_ite_singleton dst v
  | MovQ src dst => exact imm_not_mem_ite_singleton src v
  | CallQ label arity =>
      simp only [Instr.uses, List.mem_toFinset]
      intro h
      obtain ⟨r, hr, hEq⟩ := List.mem_map.mp h
      cases hEq
  | PushQ op => simp [Instr.uses]
  | PopQ op => simp [Instr.uses]
  | Jmp label => simp [Instr.uses]
  | Syscall => simp [Instr.uses]
  | RetQ => simp [Instr.uses]

lemma imm_not_mem_defs (ins : Instr) (v : Int) : Operand.Imm v ∉ ins.defs := by
  cases ins with
  | AddQ src dst => exact imm_not_mem_ite_singleton dst v
  | SubQ src dst => exact imm_not_mem_ite_singleton dst v
  | NegQ dst => exact imm_not_mem_ite_singleton dst v
  | MovQ src dst => exact imm_not_mem_ite_singleton dst v
  | CallQ label arity => simp [Instr.defs]
  | PushQ op => simp [Instr.defs]
  | PopQ op => simp [Instr.defs]
  | Jmp label => simp [Instr.defs]
  | Syscall => simp [Instr.defs]
  | RetQ => simp [Instr.defs]

lemma livenessGo_imm_not_mem (l : List Instr) (acc : Finset Operand)
    (hacc : ∀ v : Int, Operand.Imm v ∉ acc) :
    ∀ r ∈ livenessGo l acc,
      (∀ v : Int, Operand.Imm v ∉ r.before) ∧ (∀ v : Int, Operand.Imm v ∉ r.after) := by
  induction l generalizing acc with
  | nil => simp [livenessGo]
  | cons i rest ih =>
      intro r hr
      have hbefore : ∀ v : Int, Operand.Imm v ∉ i.uses ∪ (acc \ i.defs) := by
        intro v hv
        rcases Finset.mem_union.mp hv with h | h
        · exact imm_not_mem_uses i v h
        · exact hacc v (Finset.mem_sdiff.mp h).1
      simp only [livenessGo, List.mem_cons] at hr
      rcases hr with rfl | hr
      · exact ⟨hbefore, hacc⟩
      · exact ih _ hbefore r hr

lemma arg_subset_caller : ∀ r ∈ Register.ARGUMENT_PASSING, r ∈ Register.CALLER_SAVED := by
  decide

/-! ### Claim theorems -/

/-- C2: for every block, `liveness` satisfies the backward recurrence: the
last record's `after` is empty, every record's `before` is
`uses ∪ (after \ defs)` of its own instruction, and each record's `after`
equals the next record's `before`. -/
theorem c2_liveness_recurrence (b : Block) :
    (∀ r, b.liveness.getLast? = some r → r.after = ∅) ∧
    (∀ r ∈ b.liveness, r.before = r.instr.uses ∪ (r.after \ r.instr.defs)) ∧
    (∀ i, ∀ hi : i + 1 < b.liveness.length,
      b.liveness[i].after = b.liveness[i + 1].before) := by
  refine ⟨?_, ?_, ?_⟩
  · intro r h
    rw [show b.liveness = (livenessGo b.instrs.reverse ∅).reverse from rfl,
      List.getLast?_reverse] at h
    exact livenessGo_head_after _ _ r h
  · intro r hr
    rw [show b.liveness = (livenessGo b.instrs.reverse ∅).reverse from rfl,
      List.mem_reverse] at hr
    exact mem_livenessGo_before _ _ r hr
  · intro i hi
    have hb : b.liveness = (livenessGo b.instrs.reverse ∅).reverse := rfl
    set L := livenessGo b.instrs.reverse ∅ with hLdef
    have hiL : i + 1 < L.length := by
      rw [hb, List.length_reverse] at hi; exact hi
    have opt : (b.liveness[i]?).map Liveness.after =
        (b.liveness[i + 1]?).map Liveness.before := by
      rw [hb, List.getElem?_reverse (show i < L.length by omega),
        List.getElem?_reverse hiL,
        show L.length - 1 - i = (L.length - 1 - (i + 1)) + 1 from by omega]
      exact livenessGo_chain_opt b.instrs.reverse ∅ (L.length - 1 - (i + 1))
        (by rw [← hLdef]; omega)
    rw [List.getElem?_eq_getElem (show i < b.liveness.length by omega),
      List.getElem?_eq_getElem hi] at opt
    simpa using opt

/-- Witness for C2 at the test block: the last record's `after` is empty and
record 0's `after` equals record 1's `before`. -/
theorem c2_witness :
    (testBlock.liveness.get ⟨4, by decide⟩).after = ∅ ∧
    (testBlock.liveness.get ⟨0, by decide⟩).after =
      (testBlock.liveness.get ⟨1, by decide⟩).before :=
  ⟨(c2_liveness_recurrence testBlock).1 _ (by decide),
   (c2_liveness_recurrence testBlock).2.2 0 (by decide)⟩

/-- C7: the liveness result has one record per instruction, the recorded
instructions are the block's instructions in the same forward order, and the
empty block yields the empty sequence. -/
theorem c7_length_and_order (b : Block) :
    b.liveness.length = b.instrs.length ∧
    b.liveness.map Liveness.instr = b.instrs ∧
    (Block.mk []).liveness = [] := by
  refine ⟨liveness_length b, ?_, rfl⟩
  rw [show b.liveness = (livenessGo b.instrs.reverse ∅).reverse from rfl,
    List.map_reverse, livenessGo_map_instr, List.reverse_reverse]

/-- C1 counterexample: `uses` never signals an error — a `CallQ` with arity 7
(exceeding the 6 argument-passing registers) silently truncates: its use set
is exactly the full argument-passing list and coincides with the use set at
arity 6, refuting the claim that an out-of-bounds arity fails fast. -/
theorem c1_counterexample :
    Instr.uses (.CallQ "f" 7) = (Register.ARGUMENT_PASSING.map Operand.Reg).toFinset ∧
    Instr.uses (.CallQ "f" 7) = Instr.uses (.CallQ "f" 6) := by
  exact ⟨by decide, by decide⟩

/-- C1 amended: for every `CallQ` whose arity exceeds 6, `uses` silently
truncates to the full 6-register argument-passing list (identical to the
arity-6 result); no error is raised for any arity. -/
theorem c1_amended (l : Label) (arity : Arity) (h : 6 < arity) :
    Instr.uses (.CallQ l arity) = Instr.uses (.CallQ l 6) ∧
    Instr.uses (.CallQ l arity) = (Register.ARGUMENT_PASSING.map Operand.Reg).toFinset := by
  have htake : Register.ARGUMENT_PASSING.take arity = Register.ARGUMENT_PASSING :=
    List.take_of_length_le (Nat.le_of_lt h)
  constructor
  · show ((Register.ARGUMENT_PASSING.take arity).map Operand.Reg).toFinset =
      ((Register.ARGUMENT_PASSING.take 6).map Operand.Reg).toFinset
    rw [htake, List.take_of_length_le (Nat.le_refl 6)]
  · show ((Register.ARGUMENT_PASSING.take arity).map Operand.Reg).toFinset = _
    rw [htake]

/-- Witness for C1 amended at arity 7. -/
theorem c1_witness :
    Instr.uses (.CallQ "g" 7) = Instr.uses (.CallQ "g" 6) ∧
    Instr.uses (.CallQ "g" 7) = (Register.ARGUMENT_PASSING.map Operand.Reg).toFinset :=
  c1_amended "g" 7 (by decide)

/-- C3: for `CallQ` with arity ≤ 6, `uses` is the first `arity` registers of
the argument-passing list RDI, RSI, RDX, RCX, R8, R9 (as `Reg` operands) and
`defs` is every caller-saved register RAX, RCX, RDX, RSI, RDI, R8, R9, R10,
R11 (as `Reg` operands), independent of the label. -/
theorem c3_callq_uses_defs (l : Label) (arity : Arity) (h : arity ≤ 6) :
    Instr.uses (.CallQ l arity) =
      (([Register.RDI, .RSI, .RDX, .RCX, .R8, .R9].take arity).map Operand.Reg).toFinset ∧
    Instr.defs (.CallQ l arity) =
      (([Register.RAX, .RCX, .RDX, .RSI, .RDI, .R8, .R9, .R10, .R11]).map
        Operand.Reg).toFinset :=
  ⟨rfl, rfl⟩

/-- Witness for C3 at label "g", arity 2. -/
theorem c3_witness :
    Instr.uses (.CallQ "g" 2) =
      (([Register.RDI, .RSI, .RDX, .RCX, .R8, .R9].take 2).map Operand.Reg).toFinset ∧
    Instr.defs (.CallQ "g" 2) =
      (([Register.RAX, .RCX, .RDX, .RSI, .RDI, .R8, .R9, .R10, .R11]).map
        Operand.Reg).toFinset :=
  c3_callq_uses_defs "g" 2 (by decide)

/-- C4 counterexample: when `MovQ`'s destination aliases its source, the
destination operand IS a member of the use set, refuting the sub-claim that
"dst is never in MovQ's uses". -/
theorem c4_counterexample :
    Operand.Var "x" ∈ Instr.uses (.MovQ (.Var "x") (.Var "x")) := by decide

/-- C4 amended: the Add/Sub/Neg/Mov use/def table as claimed, with the Mov
clause weakened to: the destination is in `MovQ`'s uses only via aliasing,
i.e. `dst ∉ uses (MovQ src dst)` whenever `dst ≠ src`. -/
theorem c4_amended (src dst : Operand) :
    Instr.uses (.AddQ src dst) = ({src, dst} : Finset Operand).filter (fun o => o.can_live) ∧
    Instr.uses (.SubQ src dst) = ({src, dst} : Finset Operand).filter (fun o => o.can_live) ∧
    Instr.defs (.AddQ src dst) = (if dst.can_live then {dst} else ∅) ∧
    Instr.defs (.SubQ src dst) = (if dst.can_live then {dst} else ∅) ∧
    Instr.uses (.NegQ dst) = (if dst.can_live then {dst} else ∅) ∧
    Instr.defs (.NegQ dst) = (if dst.can_live then {dst} else ∅) ∧
    Instr.uses (.MovQ src dst) = (if src.can_live then {src} else ∅) ∧
    (dst ≠ src → dst ∉ Instr.uses (.MovQ src dst)) ∧
    Instr.defs (.MovQ src dst) = (if dst.can_live then {dst} else ∅) := by
  refine ⟨(pair_filter_can_live src dst).symm, (pair_filter_can_live src dst).symm,
    rfl, rfl, rfl, rfl, rfl, ?_, rfl⟩
  intro hne hmem
  by_cases hs : src.can_live
  · simp only [Instr.uses, hs, if_true, Finset.mem_singleton] at hmem
    exact hne hmem
  · simp [Instr.uses, hs] at hmem

/-- Witness for C4 amended: with distinct source and destination, the
destination is not in `MovQ`'s use set. -/
theorem c4_witness :
    Operand.Var "y" ∉ Instr.uses (.MovQ (.Var "x") (.Var "y")) :=
  (c4_amended (.Var "x") (.Var "y")).2.2.2.2.2.2.2.1 (by decide)

/-- C5: `PushQ`, `PopQ`, `Jmp`, `Syscall` and `RetQ` have empty use and def
sets for every operand and label, and a block of such instructions is
analyzed in full (one record per instruction, no failure path). -/
theorem c5_stack_control_empty (op : Operand) (l : Label) :
    Instr.uses (.PushQ op) = ∅ ∧ Instr.defs (.PushQ op) = ∅ ∧
    Instr.uses (.PopQ op) = ∅ ∧ Instr.defs (.PopQ op) = ∅ ∧
    Instr.uses (.Jmp l) = ∅ ∧ Instr.defs (.Jmp l) = ∅ ∧
    Instr.uses .Syscall = ∅ ∧ Instr.defs .Syscall = ∅ ∧
    Instr.uses .RetQ = ∅ ∧ Instr.defs .RetQ = ∅ ∧
    (Block.mk [.PushQ op, .PopQ op, .Jmp l, .Syscall, .RetQ]).liveness.length = 5 :=
  ⟨rfl, rfl, rfl, rfl, rfl, rfl, rfl, rfl, rfl, rfl, by simp [liveness_length]⟩

/-- Witness for C5 at a concrete operand and label. -/
theorem c5_witness :
    Instr.uses (.PushQ (.Reg .RAX)) = ∅ ∧ Instr.defs (.PushQ (.Reg .RAX)) = ∅ ∧
    Instr.uses (.PopQ (.Reg .RAX)) = ∅ ∧ Instr.defs (.PopQ (.Reg .RAX)) = ∅ ∧
    Instr.uses (.Jmp "g") = ∅ ∧ Instr.defs (.Jmp "g") = ∅ ∧
    Instr.uses .Syscall = ∅ ∧ Instr.defs .Syscall = ∅ ∧
    Instr.uses .RetQ = ∅ ∧ Instr.defs .RetQ = ∅ ∧
    (Block.mk [.PushQ (.Reg .RAX), .PopQ (.Reg .RAX), .Jmp "g", .Syscall,
      .RetQ]).liveness.length = 5 :=
  c5_stack_control_empty (.Reg .RAX) "g"

/-- C6: no `Imm` operand is ever a member of any record's `before` or
`after` set in any liveness result. -/
theorem c6_immediate_exclusion (b : Block) :
    ∀ r ∈ b.liveness, ∀ v : Int,
      Operand.Imm v ∉ r.before ∧ Operand.Imm v ∉ r.after := by
  intro r hr v
  rw [show b.liveness = (livenessGo b.instrs.reverse ∅).reverse from rfl,
    List.mem_reverse] at hr
  have h := livenessGo_imm_not_mem b.instrs.reverse ∅ (by simp) r hr
  exact ⟨h.1 v, h.2 v⟩

/-- Witness for C6 at record 1 of the test block and the immediate 10 that
the block moves. -/
theorem c6_witness :
    Operand.Imm 10 ∉ (testBlock.liveness.get ⟨1, by decide⟩).before ∧
    Operand.Imm 10 ∉ (testBlock.liveness.get ⟨1, by decide⟩).after :=
  c6_immediate_exclusion testBlock _ (testBlock.liveness.get_mem 1 (by decide)) 10

/-- C8: on the worked-example block the per-instruction
(live-before, live-after) pairs are exactly
(∅,{x}), ({x},{x,y}), ({x,y},{y,z}), ({y,z},{z}), ({z},∅). -/
theorem c8_worked_example :
    testBlock.liveness.map (fun r => (r.before, r.after)) =
      [((∅ : Finset Operand), {Operand.Var "x"}),
       ({Operand.Var "x"}, {Operand.Var "x", Operand.Var "y"}),
       ({Operand.Var "x", Operand.Var "y"}, {Operand.Var "y", Operand.Var "z"}),
       ({Operand.Var "y", Operand.Var "z"}, {Operand.Var "z"}),
       ({Operand.Var "z"}, (∅ : Finset Operand))] := by decide

/-- C9: every argument-passing register is caller-saved, so a `CallQ`'s use
set is contained in its def set for every arity; consequently any liveness
record holding a `CallQ` has
`before = uses ∪ (after \ caller-saved registers)`, and an argument-passing
register reaches `before` only through `uses`, never by surviving from
`after`. -/
theorem c9_call_before_structure :
    (∀ r ∈ Register.ARGUMENT_PASSING, r ∈ Register.CALLER_SAVED) ∧
    (∀ (l : Label) (arity : Arity),
      Instr.uses (.CallQ l arity) ⊆ Instr.defs (.CallQ l arity)) ∧
    (∀ (b : Block), ∀ lv ∈ b.liveness, ∀ (l : Label) (arity : Arity),
      lv.instr = .CallQ l arity →
        lv.before = Instr.uses (.CallQ l arity) ∪
          (lv.after \ (Register.CALLER_SAVED.map Operand.Reg).toFinset) ∧
        ∀ r ∈ Register.ARGUMENT_PASSING,
          Operand.Reg r ∈ lv.before → Operand.Reg r ∈ Instr.uses (.CallQ l arity)) := by
  refine ⟨arg_subset_caller, ?_, ?_⟩
  · intro l arity o ho
    simp only [Instr.uses, List.mem_toFinset] at ho
    obtain ⟨r, hr, rfl⟩ := List.mem_map.mp ho
    have hrAP : r ∈ Register.ARGUMENT_PASSING := List.mem_of_mem_take hr
    simp only [Instr.defs, List.mem_toFinset]
    exact List.mem_map.mpr ⟨r, arg_subset_caller r hrAP, rfl⟩
  · intro b lv hlv l arity hinstr
    have hbefore : lv.before = lv.instr.uses ∪ (lv.after \ lv.instr.defs) := by
      rw [show b.liveness = (livenessGo b.instrs.reverse ∅).reverse from rfl,
        List.mem_reverse] at hlv
      exact mem_livenessGo_before _ _ lv hlv
    constructor
    · rw [hbefore, hinstr]; rfl
    · intro r hrAP hrb
      rw [hbefore, hinstr] at hrb
      rcases Finset.mem_union.mp hrb with hu | hd
      · exact hu
      · exfalso
        apply (Finset.mem_sdiff.mp hd).2
        show Operand.Reg r ∈ (Register.CALLER_SAVED.map Operand.Reg).toFinset
        exact List.mem_toFinset.mpr (List.mem_map.mpr ⟨r, arg_subset_caller r hrAP, rfl⟩)

/-- Witness for C9 at a one-instruction block holding `CallQ "f" 2`. -/
theorem c9_witness :
    ((Block.mk [InstrF.CallQ "f" 2]).liveness.get ⟨0, by decide⟩).before =
      Instr.uses (.CallQ "f" 2) ∪
        (((Block.mk [InstrF.CallQ "f" 2]).liveness.get ⟨0, by decide⟩).after \
          (Register.CALLER_SAVED.map Operand.Reg).toFinset) :=
  (c9_call_before_structure.2.2 (Block.mk [InstrF.CallQ "f" 2]) _
    ((Block.mk [InstrF.CallQ "f" 2]).liveness.get_mem 0 (by decide)) "f" 2 (by decide)).1

/-- C10: the caller-saved list (9 registers) and the callee-saved list
(7 registers) are disjoint and together cover the full 16-register
enumeration — an exact partition. -/
theorem c10_partition :
    Register.CALLER_SAVED.length = 9 ∧
    Register.CALLEE_SAVED.length = 7 ∧
    (∀ r : Register, ¬(r ∈ Register.CALLER_SAVED ∧ r ∈ Register.CALLEE_SAVED)) ∧
    (∀ r : Register, r ∈ Register.CALLER_SAVED ∨ r ∈ Register.CALLEE_SAVED) ∧
    Register.CALLER_SAVED.toFinset ∪ Register.CALLEE_SAVED.toFinset =
      (Finset.univ : Finset Register) ∧
    Fintype.card Register = 16 := by decide

end X86
